import Mathlib

/-!
Verification of the `wgpu_memory` free-list GPU allocator.

This file is a shallow embedding of the repository's two core modules:

* `src/simple.rs` — `SimpleGpuMemory<T>`, a free-list allocator over a
  CPU-side byte mirror (`data: Vec<u8>`), a free list
  (`available_ranges: Vec<Range<usize>>`), a slotmap registry of used
  ranges (`used_ranges: SlotMap<AddressId, Range<usize>>`), a live
  element counter (`allocated_count`) and a dirty flag (`mutated`).
* `src/auto_drop.rs` — `AutoDropping<T, M>`, an ownership-tracking
  decorator whose handles free their allocation on drop.

Modelling conventions:

* Machine integers (`usize`) are modelled as `Nat`.  Every subtraction
  performed by the source is guarded by the source itself (e.g.
  `range.end -= size` only runs after `range.len() >= size` held), so
  truncated `Nat` subtraction agrees with the Rust value wherever the
  Rust code does not panic.
* Bytes are modelled as `Nat` (their numeric value; only equality of
  byte contents matters to the claims).
* `size_of::<T>()` is an explicit parameter `es` of every operation
  that uses it.
* The slotmap is modelled as an association list `List (Nat × AddressRange)`
  plus a fresh-key counter `next_key`.  Slotmap keys are generation
  tagged and never alias a previously freed key, which the fresh
  counter captures.  Iteration order of values only matters to
  `fix_sequence`, which treats each entry independently.
* `wgpu` objects (`Buffer`, `Device`, `Queue`) are external
  collaborators; `upload` reports the bytes handed to the transport
  (`upload_or_resize`) as an `Option (List Nat)`, `none` meaning the
  transport was skipped.
* Indexing that panics in Rust on a stale handle (`used_ranges[*index]`
  in `resize`) is modelled with `Option`.
-/

namespace WgpuMemory

/-- `Range<usize>`: half-open byte interval `[start, stop)`.  The source
field `end` is called `stop` here because `end` is a Lean keyword. -/
structure AddressRange where
  start : Nat
  stop : Nat
deriving DecidableEq, Repr

/-- `Range::len()` — `end - start`. -/
def AddressRange.len (r : AddressRange) : Nat := r.stop - r.start

/-- State of `SimpleGpuMemory<T>` (the `wgpu::Buffer` handle is an
external collaborator and is not part of the allocator state proper). -/
structure SimpleGpuMemory where
  data : List Nat
  available_ranges : List AddressRange
  used_ranges : List (Nat × AddressRange)
  next_key : Nat
  allocated_count : Nat
  mutated : Bool
deriving DecidableEq, Repr

/-- `SimpleGpuMemory::new` — empty mirror, empty free list, empty
registry, zero live elements, clean. -/
def SimpleGpuMemory.new : SimpleGpuMemory :=
  { data := [], available_ranges := [], used_ranges := [],
    next_key := 0, allocated_count := 0, mutated := false }

/-- Lookup in the slotmap (`self.used_ranges.get(index)` /
`self.used_ranges[index]`). -/
def lookup_used (m : SimpleGpuMemory) (key : Nat) : Option AddressRange :=
  (m.used_ranges.find? (fun kv => kv.1 == key)).map Prod.snd

/-- The `while` loop of `SimpleGpuMemory::merge_available_ranges`,
started at the entry `cur` with the remainder of the list after it:
while the next entry starts at or before `cur.stop`, remove it and
enlarge `cur` to the union (`left.start.min(right.start)`,
`left.end.max(right.end)`). -/
def merge_run (cur : AddressRange) : List AddressRange → List AddressRange
  | [] => [cur]
  | r :: rest =>
    if r.start ≤ cur.stop then
      merge_run ⟨min cur.start r.start, max cur.stop r.stop⟩ rest
    else
      cur :: r :: rest

/-- `SimpleGpuMemory::merge_available_ranges(index)`. -/
def merge_available_ranges (rs : List AddressRange) (index : Nat) : List AddressRange :=
  match rs.drop index with
  | [] => rs
  | cur :: rest => rs.take index ++ merge_run cur rest

/-- `Vec::insert(i, x)` for `i <= l.length`. -/
def insert_at (i : Nat) (x : AddressRange) (l : List AddressRange) : List AddressRange :=
  l.take i ++ x :: l.drop i

/-- `SimpleGpuMemory::make_range_available(range)`: position of the
first free range whose `start <= range.end`; insert there and merge
forward, otherwise push at the end. -/
def make_range_available (rs : List AddressRange) (range : AddressRange) : List AddressRange :=
  match rs.findIdx? (fun other => other.start ≤ range.stop) with
  | some i => merge_available_ranges (insert_at i range rs) i
  | none => rs ++ [range]

/-- One iteration of the `fix_sequence` loop applied to one used range:
`if range.end <= used_range.start { used_range.start -= range_len;
used_range.end -= range_len; }`. -/
def shift_used_range (gap : AddressRange) (u : AddressRange) : AddressRange :=
  if gap.stop ≤ u.start then ⟨u.start - gap.len, u.stop - gap.len⟩ else u

/-- `self.data.drain(range)` — remove the bytes `[start, stop)`. -/
def drain_data (data : List Nat) (r : AddressRange) : List Nat :=
  data.take r.start ++ data.drop r.stop

/-- Body of the `for range in self.available_ranges.drain(..).rev()`
loop of `fix_sequence`. -/
def fix_sequence_step (acc : List Nat × List (Nat × AddressRange)) (gap : AddressRange) :
    List Nat × List (Nat × AddressRange) :=
  (drain_data acc.1 gap, acc.2.map (fun kv => (kv.1, shift_used_range gap kv.2)))

/-- `SimpleGpuMemory::fix_sequence` — remove all free-list holes from
`data`, shifting later used ranges down; the free ranges are processed
in reverse list order and the free list is drained. -/
def fix_sequence (m : SimpleGpuMemory) : SimpleGpuMemory :=
  let res := m.available_ranges.reverse.foldl fix_sequence_step (m.data, m.used_ranges)
  { m with data := res.1, used_ranges := res.2, available_ranges := [] }

/-- `.iter().enumerate().rev().find_map(|(i, r)| p(r).then_some(i))` —
the LAST list index whose element satisfies `p`. -/
def find_last_idx (p : AddressRange → Bool) : List AddressRange → Option Nat
  | [] => none
  | x :: xs =>
    match find_last_idx p xs with
    | some i => some (i + 1)
    | none => if p x then some 0 else none

/-- `GpuMemory::allocate(count)` for `SimpleGpuMemory`.  Returns the new
state and the freshly minted key (`used_ranges.insert(range)`). -/
def allocate (es : Nat) (m : SimpleGpuMemory) (count : Nat) : SimpleGpuMemory × Nat :=
  let size := es * count
  let res : List Nat × List AddressRange × AddressRange :=
    match find_last_idx (fun r => size ≤ r.len) m.available_ranges with
    | some range_index =>
      let r := m.available_ranges.getD range_index ⟨0, 0⟩
      if r.len ≠ size then
        -- split: shrink the free range from its tail, the trailing
        -- sub-range becomes the allocation
        (m.data,
         m.available_ranges.set range_index ⟨r.start, r.stop - size⟩,
         ⟨r.stop - size, r.stop⟩)
      else
        (m.data, m.available_ranges.eraseIdx range_index, r)
    | none =>
      -- bump-the-end fallback: append `size` zero bytes
      (m.data ++ List.replicate size 0,
       m.available_ranges,
       ⟨m.data.length, m.data.length + size⟩)
  ({ m with
      mutated := true
      data := res.1
      available_ranges := res.2.1
      used_ranges := m.used_ranges ++ [(m.next_key, res.2.2)]
      next_key := m.next_key + 1
      allocated_count := m.allocated_count + count },
   m.next_key)

/-- `GpuMemory::free(index)` for `SimpleGpuMemory`.  `mutated` is set
unconditionally, before the registry is consulted. -/
def free (es : Nat) (m : SimpleGpuMemory) (key : Nat) : SimpleGpuMemory :=
  match lookup_used m key with
  | some range =>
    { m with
        mutated := true
        used_ranges := m.used_ranges.filter (fun kv => kv.1 ≠ key)
        allocated_count := m.allocated_count - range.len / es
        available_ranges := make_range_available m.available_ranges range }
  | none => { m with mutated := true }

/-- `GpuMemory::resize(index, len)` for `SimpleGpuMemory`.  `none`
models the panic of `self.used_ranges[*index]` on a stale handle.  On
success the returned key is the value written back through the
`&mut Self::Index` argument. -/
def resize (es : Nat) (m : SimpleGpuMemory) (key : Nat) (len : Nat) :
    Option (SimpleGpuMemory × Nat) :=
  let size := len * es
  match lookup_used m key with
  | none => none
  | some range =>
    if range.len < size then
      -- Ordering::Less: free then allocate anew, no copy of contents
      some (allocate es (free es m key) len)
    else if range.len = size then
      -- Ordering::Equal: complete no-op
      some (m, key)
    else
      -- Ordering::Greater: free the leading part, keep the trailing
      -- `size` bytes
      some
        ({ m with
            mutated := true
            allocated_count :=
              m.allocated_count - (AddressRange.mk range.start (range.stop - size)).len / es
            available_ranges :=
              make_range_available m.available_ranges ⟨range.start, range.stop - size⟩
            used_ranges :=
              m.used_ranges.map (fun kv =>
                if kv.1 = key then (kv.1, ⟨range.stop - size, kv.2.stop⟩) else kv) },
         key)

/-- `GpuMemory::len` — `allocated_count`. -/
def SimpleGpuMemory.length (m : SimpleGpuMemory) : Nat := m.allocated_count

/-- `GpuMemory::size` (default method in `lib.rs`) —
`self.len() * size_of::<T>()`. -/
def size (es : Nat) (m : SimpleGpuMemory) : Nat := m.length * es

/-- `GpuMemory::len_of(index)` — `used_ranges[index].len() / size_of::<T>()`. -/
def len_of (es : Nat) (m : SimpleGpuMemory) (key : Nat) : Option Nat :=
  (lookup_used m key).map (fun r => r.len / es)

/-- The byte content `data[start..end]` addressed by a range, as read by
`GpuMemory::get` before its cast to `&mut [T]`. -/
def range_bytes (data : List Nat) (r : AddressRange) : List Nat :=
  (data.drop r.start).take (r.stop - r.start)

/-- `GpuMemory::upload` for `SimpleGpuMemory`.  The second component
reports the bytes handed to `upload_or_resize` (the external transport),
`none` when the transport is skipped because `mutated` is false. -/
def upload (m : SimpleGpuMemory) : SimpleGpuMemory × Option (List Nat) :=
  if !m.mutated then (m, none)
  else
    let m1 := fix_sequence m
    ({ m1 with mutated := false }, some m1.data)

/-- `GpuMemory::optimize(Strategy::Truncate)` restricted to the
allocator state: it calls `fix_sequence`; the remaining work (replacing
the device buffer, `shrink_to_fit` on the mirror's spare capacity) does
not change `data`'s contents, the free list or the registry. -/
def optimize_truncate (m : SimpleGpuMemory) : SimpleGpuMemory := fix_sequence m

/-- The states reachable from `SimpleGpuMemory::new` by any sequence of
`allocate` / `resize` / `free`. -/
inductive Reachable (es : Nat) : SimpleGpuMemory → Prop
  | init : Reachable es SimpleGpuMemory.new
  | alloc {m : SimpleGpuMemory} (count : Nat) :
      Reachable es m → Reachable es (allocate es m count).1
  | do_free {m : SimpleGpuMemory} (key : Nat) :
      Reachable es m → Reachable es (free es m key)
  | do_resize {m m' : SimpleGpuMemory} {key len k' : Nat} :
      Reachable es m → resize es m key len = some (m', k') → Reachable es m'

/-- All ranges tracked by the allocator: used ranges then free ranges. -/
def all_ranges (m : SimpleGpuMemory) : List AddressRange :=
  m.used_ranges.map Prod.snd ++ m.available_ranges

/-- Two byte ranges do not overlap. -/
def ranges_disjoint (a b : AddressRange) : Prop :=
  a.stop ≤ b.start ∨ b.stop ≤ a.start

instance : DecidableRel ranges_disjoint := fun a b => by
  unfold ranges_disjoint; infer_instance

/-- Byte position `p` lies in one of the tracked ranges. -/
def covered (m : SimpleGpuMemory) (p : Nat) : Prop :=
  ∃ r ∈ all_ranges m, r.start ≤ p ∧ p < r.stop

instance (m : SimpleGpuMemory) (p : Nat) : Decidable (covered m p) := by
  unfold covered; infer_instance

/-- The invariant claimed by the spec for `SimpleGpuMemory`: used and
free ranges are pairwise non-overlapping, lie inside `[0, data.len())`,
and together with a still-unclaimed tail exactly partition
`[0, data.len())` (the covered positions form a prefix of the buffer,
so what is left over is a suffix — the tail). -/
def partition_with_tail (m : SimpleGpuMemory) : Prop :=
  List.Pairwise ranges_disjoint (all_ranges m) ∧
  (∀ r ∈ all_ranges m, r.start ≤ r.stop ∧ r.stop ≤ m.data.length) ∧
  (∀ p < m.data.length, 0 < p → covered m p → covered m (p - 1))

instance (m : SimpleGpuMemory) : Decidable (partition_with_tail m) := by
  unfold partition_with_tail; infer_instance

/-- Exact partition with no unclaimed tail: used and free ranges are
pairwise non-overlapping, in bounds, and cover every byte of `data`. -/
def exact_partition (m : SimpleGpuMemory) : Prop :=
  List.Pairwise ranges_disjoint (all_ranges m) ∧
  (∀ r ∈ all_ranges m, r.start ≤ r.stop ∧ r.stop ≤ m.data.length) ∧
  (∀ p < m.data.length, covered m p)

instance (m : SimpleGpuMemory) : Decidable (exact_partition m) := by
  unfold exact_partition; infer_instance

/-- Total byte length of a list of ranges. -/
def sum_lens (l : List AddressRange) : Nat := (l.map AddressRange.len).sum

/-- Sum of `len_of` over all live handles. -/
def sum_len_of (es : Nat) (m : SimpleGpuMemory) : Nat :=
  (m.used_ranges.map (fun kv => kv.2.len / es)).sum

/-- Registry well-formedness, established for every reachable state:
keys are distinct and below the fresh-key counter, every used range's
byte length is a multiple of the element size, and the live element
counter times the element size equals the used byte total. -/
def registry_wf (es : Nat) (m : SimpleGpuMemory) : Prop :=
  (m.used_ranges.map Prod.fst).Nodup ∧
  (∀ kv ∈ m.used_ranges, kv.1 < m.next_key) ∧
  (∀ kv ∈ m.used_ranges, es ∣ kv.2.len) ∧
  m.allocated_count * es = sum_lens (m.used_ranges.map Prod.snd)

/-- `j` is the index `allocate` must pick according to the spec: the
rightmost-positioned free-list entry whose length is at least the
requested size. -/
def is_last_fit (es count : Nat) (m : SimpleGpuMemory) (j : Nat) : Prop :=
  j < m.available_ranges.length ∧
  es * count ≤ (m.available_ranges.getD j ⟨0, 0⟩).len ∧
  ∀ i < m.available_ranges.length, j < i →
    (m.available_ranges.getD i ⟨0, 0⟩).len < es * count

instance (es count : Nat) (m : SimpleGpuMemory) (j : Nat) :
    Decidable (is_last_fit es count m j) := by
  unfold is_last_fit; infer_instance

/-- Cumulative effect of the `fix_sequence` loop on one used-range
entry: the per-gap shifts, applied in reverse free-list order. -/
def shift_all (gaps : List AddressRange) (u : AddressRange) : AddressRange :=
  gaps.reverse.foldl (fun v g => shift_used_range g v) u

/-- Cumulative effect of the `fix_sequence` loop on `data`: the
per-gap drains, applied in reverse free-list order. -/
def drop_all (gaps : List AddressRange) (data : List Nat) : List Nat :=
  gaps.reverse.foldl drain_data data

/-- The set of byte positions of a range, for the counting argument. -/
def range_finset (r : AddressRange) : Finset Nat := Finset.Ico r.start r.stop

/-- Union of the position sets of a list of ranges. -/
def union_ranges : List AddressRange → Finset Nat
  | [] => ∅
  | r :: rest => range_finset r ∪ union_ranges rest

/-!
## The ownership-tracking decorator (`src/auto_drop.rs`)

`AutoDropping<T, M>` holds `inner: Arc<RwLock<M>>`.  Its handle type
`AutoDroppingAddressId` holds the inner key, `parent: Weak<RwLock<M>>`
and `refcount: Arc<()>`.  We model the heap of `Arc<()>` cells
explicitly: `cells` maps a cell identifier to its strong count, and
each handle records which cell its `refcount` field points to.  The
backing store stays alive throughout (so `Weak::upgrade` succeeds),
which is the situation the claim is about.
-/

/-- A handle issued by the decorator: the inner allocator key plus the
identity of the `Arc<()>` cell held in its `refcount` field. -/
structure AutoDroppingAddressId where
  inner : Nat
  refcount : Nat
deriving DecidableEq, Repr

/-- The decorator state: the backing `SimpleGpuMemory` (behind
`Arc<RwLock<..>>`) together with the heap of live `Arc<()>` strong
counts. -/
structure AutoDropping where
  inner : SimpleGpuMemory
  cells : List (Nat × Nat)
  next_cell : Nat
deriving DecidableEq, Repr

/-- `AutoDropping::new` over a fresh backing store. -/
def AutoDropping.new : AutoDropping :=
  { inner := SimpleGpuMemory.new, cells := [], next_cell := 0 }

/-- `Arc::strong_count(&self.refcount)` for the cell a handle points
to (0 if the cell no longer exists). -/
def strong_count (w : AutoDropping) (cell : Nat) : Nat :=
  ((w.cells.find? (fun c => c.1 == cell)).map Prod.snd).getD 0

/-- `AutoDropping::allocate(count)`: delegate to the inner allocator
under the write lock and wrap the key with `refcount: Arc::new(())` —
a fresh cell with strong count 1. -/
def auto_allocate (es : Nat) (w : AutoDropping) (count : Nat) :
    AutoDropping × AutoDroppingAddressId :=
  let res := allocate es w.inner count
  ({ inner := res.1,
     cells := w.cells ++ [(w.next_cell, 1)],
     next_cell := w.next_cell + 1 },
   { inner := res.2, refcount := w.next_cell })

/-- `AutoDroppingAddressId::clone`: per the source, the clone keeps the
same inner key but its `refcount` field is `Arc::new(())` — a fresh
cell with strong count 1, not a clone of the original's cell. -/
def clone_id (w : AutoDropping) (h : AutoDroppingAddressId) :
    AutoDropping × AutoDroppingAddressId :=
  ({ w with cells := w.cells ++ [(w.next_cell, 1)], next_cell := w.next_cell + 1 },
   { inner := h.inner, refcount := w.next_cell })

/-- Dropping one `Arc<()>` reference into a cell: decrement its strong
count, deallocating the cell when the count reaches zero. -/
def dec_cell (cells : List (Nat × Nat)) (cell : Nat) : List (Nat × Nat) :=
  cells.filterMap (fun c =>
    if c.1 = cell then (if c.2 ≤ 1 then none else some (c.1, c.2 - 1)) else some c)

/-- `Drop for AutoDroppingAddressId`: if `Arc::strong_count(&self.refcount) == 1`
upgrade the parent (always alive here) and call `free` on the inner
key; afterwards the handle's fields are dropped, releasing its
reference into the cell. -/
def drop_id (es : Nat) (w : AutoDropping) (h : AutoDroppingAddressId) : AutoDropping :=
  let w1 :=
    if strong_count w h.refcount = 1 then
      { w with inner := free es w.inner h.inner }
    else w
  { w1 with cells := dec_cell w1.cells h.refcount }

/-!
## Concrete traces used by the counterexamples

All traces use `es = 1` (a one-byte element type such as `u8`, which
satisfies the `Copy + NoUninit + AnyBitPattern` bound).
-/

/-- C1 trace, step 1: allocate one element through the decorator.
`c1_alloc.2` is the original owning handle. -/
def c1_alloc : AutoDropping × AutoDroppingAddressId :=
  auto_allocate 1 AutoDropping.new 1

/-- C1 trace, step 2: duplicate the owning handle.  `c1_clone.2` is the
duplicate. -/
def c1_clone : AutoDropping × AutoDroppingAddressId :=
  clone_id c1_alloc.1 c1_alloc.2

/-- C1 trace, step 3: destroy the original handle while the duplicate
is still alive. -/
def c1_final : AutoDropping :=
  drop_id 1 c1_clone.1 c1_alloc.2

/-- C2 trace: three 4-byte allocations (keys 0, 1, 2 at ranges
`[0,4)`, `[4,8)`, `[8,12)`). -/
def c2_allocs : SimpleGpuMemory :=
  (allocate 1 (allocate 1 (allocate 1 SimpleGpuMemory.new 4).1 4).1 4).1

/-- C2 trace: free key 0 (free list `[[0,4)]`), then free key 2 —
`make_range_available` inserts `[8,12)` before `[0,4)` because
`0 <= 12`, and `merge_available_ranges` merges across the still-live
gap, leaving the free list `[[0,12)]`, which overlaps used `[4,8)`. -/
def c2_state : SimpleGpuMemory :=
  free 1 (free 1 c2_allocs 0) 2

/-- C3 trace: allocations of 4, 6 and 4 bytes (keys 0, 1, 2 at ranges
`[0,4)`, `[4,10)`, `[10,14)`), then free key 2 so the free list is
`[[10,14)]`. -/
def c3_prev : SimpleGpuMemory :=
  free 1 (allocate 1 (allocate 1 (allocate 1 SimpleGpuMemory.new 4).1 6).1 4).1 2

/-- C3 trace, final step: free key 0.  `make_range_available` finds no
entry with `start <= 4` and pushes `[0,4)` at the END of the list,
after `[10,14)`. -/
def c3_state : SimpleGpuMemory :=
  free 1 c3_prev 0

/-- Well-formedness of a list of compaction gaps relative to a buffer
of length `n`: the gaps form an ascending disjoint chain and lie inside
the buffer. -/
def gaps_wf (gaps : List AddressRange) (n : Nat) : Prop :=
  List.Pairwise (fun a b => a.stop ≤ b.start) gaps ∧
  ∀ g ∈ gaps, g.start ≤ g.stop ∧ g.stop ≤ n

/-- Witness state for C4: two free ranges `[0,4)` and `[6,16)`, both
large enough for a 4-byte request, inside a 16-byte buffer. -/
def c4_w : SimpleGpuMemory :=
  { data := List.replicate 16 0, available_ranges := [⟨0, 4⟩, ⟨6, 16⟩],
    used_ranges := [], next_key := 5, allocated_count := 0, mutated := false }

/-- Witness state for C5: one live 10-byte handle holding the bytes
1..10. -/
def c5_w : SimpleGpuMemory :=
  { data := [1, 2, 3, 4, 5, 6, 7, 8, 9, 10], available_ranges := [],
    used_ranges := [(0, ⟨0, 10⟩)], next_key := 1, allocated_count := 10,
    mutated := false }

/-- Witness state for C6: one live 3-byte handle holding the bytes
1, 2, 3. -/
def c6_w : SimpleGpuMemory :=
  { data := [1, 2, 3], available_ranges := [],
    used_ranges := [(0, ⟨0, 3⟩)], next_key := 1, allocated_count := 3,
    mutated := false }

/-- Witness state for C7: two live 2-byte handles around a 2-byte free
gap. -/
def c7_w : SimpleGpuMemory :=
  { data := [10, 20, 30, 40, 50, 60], available_ranges := [⟨2, 4⟩],
    used_ranges := [(0, ⟨0, 2⟩), (1, ⟨4, 6⟩)], next_key := 2,
    allocated_count := 4, mutated := true }

/-!
## Theorems

First generic helper lemmas, then per-claim theorems (named `Cn_*`)
with their witnesses.
-/

theorem drop_append_ge {α : Type} (l1 l2 : List α) (n : Nat) (h : l1.length ≤ n) :
    (l1 ++ l2).drop n = l2.drop (n - l1.length) := by
  have h2 : n = l1.length + (n - l1.length) := by omega
  rw [h2, List.drop_append]
  congr 1
  omega

theorem drain_data_length (d : List Nat) (g : AddressRange)
    (h1 : g.start ≤ g.stop) (h2 : g.stop ≤ d.length) :
    (drain_data d g).length = d.length - g.len := by
  simp [drain_data, AddressRange.len]
  omega

theorem range_bytes_drain_below (d : List Nat) (g u : AddressRange)
    (hu : u.stop ≤ g.start) (hg : g.start ≤ d.length) :
    range_bytes (drain_data d g) u = range_bytes d u := by
  unfold range_bytes drain_data
  rcases Nat.le_total u.start u.stop with hse | hse
  · rw [List.drop_append_of_le_length (by simp; omega)]
    rw [List.take_append_of_le_length (by simp; omega)]
    rw [List.drop_take, List.take_take]
    congr 1
    omega
  · have h0 : u.stop - u.start = 0 := by omega
    simp [h0]

theorem range_bytes_drain_above (d : List Nat) (g u : AddressRange)
    (hg1 : g.start ≤ g.stop) (hg2 : g.stop ≤ d.length)
    (hu : g.stop ≤ u.start) :
    range_bytes (drain_data d g) ⟨u.start - g.len, u.stop - g.len⟩ = range_bytes d u := by
  unfold range_bytes drain_data AddressRange.len
  simp only
  rw [drop_append_ge _ _ _ (by simp; omega)]
  rw [List.drop_drop]
  have h1 : g.stop + (u.start - (g.stop - g.start) - (List.take g.start d).length) = u.start := by
    simp
    omega
  rw [h1]
  congr 1
  omega

theorem shift_all_append (gaps : List AddressRange) (g : AddressRange) (u : AddressRange) :
    shift_all (gaps ++ [g]) u = shift_all gaps (shift_used_range g u) := by
  simp [shift_all, List.reverse_append]

theorem drop_all_append (gaps : List AddressRange) (g : AddressRange) (data : List Nat) :
    drop_all (gaps ++ [g]) data = drop_all gaps (drain_data data g) := by
  simp [drop_all, List.reverse_append]

theorem fix_sequence_fold (rs : List AddressRange) (data : List Nat)
    (used : List (Nat × AddressRange)) :
    rs.foldl fix_sequence_step (data, used) =
      (rs.foldl drain_data data,
       used.map (fun kv => (kv.1, rs.foldl (fun v g => shift_used_range g v) kv.2))) := by
  induction rs generalizing data used with
  | nil => simp
  | cons g rest ih =>
    simp only [List.foldl_cons]
    rw [show fix_sequence_step (data, used) g =
        (drain_data data g, used.map (fun kv => (kv.1, shift_used_range g kv.2))) from rfl]
    rw [ih]
    simp [List.map_map, Function.comp]

theorem fix_sequence_eq (m : SimpleGpuMemory) :
    fix_sequence m =
      { m with
          data := drop_all m.available_ranges m.data
          used_ranges :=
            m.used_ranges.map (fun kv => (kv.1, shift_all m.available_ranges kv.2))
          available_ranges := [] } := by
  unfold fix_sequence drop_all shift_all
  rw [fix_sequence_fold]

theorem gaps_wf_snoc {gaps : List AddressRange} {g : AddressRange} {n : Nat}
    (h : gaps_wf (gaps ++ [g]) n) :
    (∀ r ∈ gaps, r.stop ≤ g.start) ∧ g.start ≤ g.stop ∧ g.stop ≤ n ∧
      gaps_wf gaps (n - g.len) ∧ gaps_wf gaps n := by
  obtain ⟨hpw, hb⟩ := h
  rw [List.pairwise_append] at hpw
  have hg := hb g (by simp)
  have hchain : ∀ r ∈ gaps, r.stop ≤ g.start := fun r hr => hpw.2.2 r hr g (by simp)
  refine ⟨hchain, hg.1, hg.2, ⟨hpw.1, fun r hr => ?_⟩, hpw.1,
    fun r hr => hb r (by simp [hr])⟩
  have := hb r (by simp [hr])
  have := hchain r hr
  unfold AddressRange.len
  omega

theorem drop_all_length (gaps : List AddressRange) (data : List Nat)
    (h : gaps_wf gaps data.length) :
    (drop_all gaps data).length = data.length - sum_lens gaps := by
  induction gaps using List.reverseRecOn generalizing data with
  | nil => simp [drop_all, sum_lens]
  | append_singleton l g ih =>
    obtain ⟨hchain, hg1, hg2, hwf, hwfn⟩ := gaps_wf_snoc h
    rw [drop_all_append]
    have hlen := drain_data_length data g hg1 hg2
    rw [ih _ (by rw [hlen]; exact hwf)]
    rw [hlen]
    simp [sum_lens]
    omega

theorem shift_all_spec (gaps : List AddressRange) (data : List Nat) (u : AddressRange)
    (hg : gaps_wf gaps data.length)
    (hu1 : u.start ≤ u.stop) (hu2 : u.stop ≤ data.length)
    (hdisj : ∀ g ∈ gaps, u.stop ≤ g.start ∨ g.stop ≤ u.start) :
    (shift_all gaps u).len = u.len ∧
    (shift_all gaps u).start ≤ (shift_all gaps u).stop ∧
    (shift_all gaps u).stop ≤ (drop_all gaps data).length ∧
    range_bytes (drop_all gaps data) (shift_all gaps u) = range_bytes data u := by
  induction gaps using List.reverseRecOn generalizing data u with
  | nil => simpa [shift_all, drop_all] using ⟨hu1, hu2⟩
  | append_singleton l g ih =>
    obtain ⟨hchain, hg1, hg2, hwf, hwfn⟩ := gaps_wf_snoc hg
    rw [shift_all_append, drop_all_append]
    have hdlen := drain_data_length data g hg1 hg2
    by_cases hcase : g.stop ≤ u.start
    · -- the used range lies above the gap and is shifted down
      have hstep : shift_used_range g u = ⟨u.start - g.len, u.stop - g.len⟩ := by
        simp [shift_used_range, hcase]
      rw [hstep]
      have hlen0 : g.len = g.stop - g.start := rfl
      have h1 : (AddressRange.mk (u.start - g.len) (u.stop - g.len)).start ≤
          (AddressRange.mk (u.start - g.len) (u.stop - g.len)).stop := by
        simp; omega
      have h2 : (AddressRange.mk (u.start - g.len) (u.stop - g.len)).stop ≤
          (drain_data data g).length := by
        rw [hdlen]; simp; omega
      have h3 : ∀ r ∈ l, (AddressRange.mk (u.start - g.len) (u.stop - g.len)).stop ≤ r.start ∨
          r.stop ≤ (AddressRange.mk (u.start - g.len) (u.stop - g.len)).start := by
        intro r hr
        rcases hdisj r (by simp [hr]) with hh | hh
        · left; simp; have := hchain r hr; omega
        · right; simp; have := hchain r hr; omega
      obtain ⟨ih1, ih2, ih3, ih4⟩ := ih _ _ (by rw [hdlen]; exact hwf) h1 h2 h3
      refine ⟨?_, ih2, ih3, ?_⟩
      · rw [ih1]; unfold AddressRange.len; simp; omega
      · rw [ih4]
        exact range_bytes_drain_above data g u hg1 hg2 hcase
    · -- the used range lies below the gap and stays in place
      have hbelow : u.stop ≤ g.start := by
        rcases hdisj g (by simp) with hh | hh
        · exact hh
        · omega
      have hstep : shift_used_range g u = u := by
        simp [shift_used_range, hcase]
      rw [hstep]
      have h2 : u.stop ≤ (drain_data data g).length := by
        rw [hdlen]; unfold AddressRange.len; omega
      have h3 : ∀ r ∈ l, u.stop ≤ r.start ∨ r.stop ≤ u.start := fun r hr =>
        hdisj r (by simp [hr])
      obtain ⟨ih1, ih2, ih3, ih4⟩ := ih _ _ (by rw [hdlen]; exact hwf) hu1 h2 h3
      refine ⟨ih1, ih2, ih3, ?_⟩
      rw [ih4]
      exact range_bytes_drain_below data g u hbelow (by omega)

theorem shift_used_range_disjoint {g r u : AddressRange}
    (hg1 : g.start ≤ g.stop) (hrg : r.stop ≤ g.start)
    (hd : u.stop ≤ r.start ∨ r.stop ≤ u.start) :
    (shift_used_range g u).stop ≤ r.start ∨ r.stop ≤ (shift_used_range g u).start := by
  have hlen : g.len = g.stop - g.start := rfl
  unfold shift_used_range
  split
  · rcases hd with hh | hh
    · left; simp; omega
    · right; simp; omega
  · exact hd

theorem shift_used_range_mono {g u v : AddressRange}
    (hg1 : g.start ≤ g.stop)
    (hdu : u.stop ≤ g.start ∨ g.stop ≤ u.start)
    (h : u.stop ≤ v.start) :
    (shift_used_range g u).stop ≤ (shift_used_range g v).start := by
  have hlen : g.len = g.stop - g.start := rfl
  unfold shift_used_range
  by_cases hcu : g.stop ≤ u.start <;> by_cases hcv : g.stop ≤ v.start <;>
    simp [hcu, hcv]
  · omega
  · omega
  · have hbelow : u.stop ≤ g.start := by rcases hdu with hh | hh <;> omega
    omega
  · omega

theorem shift_all_mono (gaps : List AddressRange) (n : Nat) (u v : AddressRange)
    (hg : gaps_wf gaps n)
    (hu : ∀ g ∈ gaps, u.stop ≤ g.start ∨ g.stop ≤ u.start)
    (hv : ∀ g ∈ gaps, v.stop ≤ g.start ∨ g.stop ≤ v.start)
    (h : u.stop ≤ v.start) :
    (shift_all gaps u).stop ≤ (shift_all gaps v).start := by
  induction gaps using List.reverseRecOn generalizing u v with
  | nil => simpa [shift_all]
  | append_singleton l g ih =>
    obtain ⟨hchain, hg1, hg2, hwf, hwfn⟩ := gaps_wf_snoc hg
    rw [shift_all_append, shift_all_append]
    have hu' : ∀ r ∈ l, (shift_used_range g u).stop ≤ r.start ∨
        r.stop ≤ (shift_used_range g u).start := fun r hr =>
      shift_used_range_disjoint hg1 (hchain r hr) (hu r (by simp [hr]))
    have hv' : ∀ r ∈ l, (shift_used_range g v).stop ≤ r.start ∨
        r.stop ≤ (shift_used_range g v).start := fun r hr =>
      shift_used_range_disjoint hg1 (hchain r hr) (hv r (by simp [hr]))
    exact ih _ _ hwfn hu' hv' (shift_used_range_mono hg1 (hu g (by simp)) h)

theorem mem_union_ranges (l : List AddressRange) (p : Nat) :
    p ∈ union_ranges l ↔ ∃ r ∈ l, r.start ≤ p ∧ p < r.stop := by
  induction l with
  | nil => simp [union_ranges]
  | cons r rest ih =>
    simp [union_ranges, range_finset, Finset.mem_union, Finset.mem_Ico, ih]

theorem card_union_ranges (l : List AddressRange)
    (h : List.Pairwise ranges_disjoint l) :
    (union_ranges l).card = sum_lens l := by
  induction l with
  | nil => simp [union_ranges, sum_lens]
  | cons r rest ih =>
    obtain ⟨hr, hrest⟩ := List.pairwise_cons.mp h
    have hdisj : Disjoint (range_finset r) (union_ranges rest) := by
      rw [Finset.disjoint_left]
      intro x hx hx'
      rw [mem_union_ranges] at hx'
      obtain ⟨s, hs, h1, h2⟩ := hx'
      rw [range_finset, Finset.mem_Ico] at hx
      rcases hr s hs with hh | hh <;> unfold ranges_disjoint at * <;> omega
    rw [show union_ranges (r :: rest) = range_finset r ∪ union_ranges rest from rfl]
    rw [Finset.card_union_of_disjoint hdisj, ih hrest]
    simp [sum_lens, range_finset, Nat.card_Ico, AddressRange.len]

theorem exact_partition_length (m : SimpleGpuMemory) (h : exact_partition m) :
    m.data.length = sum_lens (all_ranges m) := by
  obtain ⟨hpw, hbounds, hcover⟩ := h
  have hunion : union_ranges (all_ranges m) = Finset.range m.data.length := by
    ext p
    rw [mem_union_ranges, Finset.mem_range]
    constructor
    · rintro ⟨r, hr, h1, h2⟩
      exact lt_of_lt_of_le h2 (hbounds r hr).2
    · intro hp
      exact hcover p hp
  calc m.data.length = (Finset.range m.data.length).card := (Finset.card_range _).symm
    _ = (union_ranges (all_ranges m)).card := by rw [hunion]
    _ = sum_lens (all_ranges m) := card_union_ranges _ hpw

theorem mem_all_ranges_used {m : SimpleGpuMemory} {kv : Nat × AddressRange}
    (h : kv ∈ m.used_ranges) : kv.2 ∈ all_ranges m :=
  List.mem_append_left _ (List.mem_map_of_mem Prod.snd h)

theorem mem_all_ranges_avail {m : SimpleGpuMemory} {g : AddressRange}
    (h : g ∈ m.available_ranges) : g ∈ all_ranges m :=
  List.mem_append_right _ h

/-- C7: After `fix_sequence` (and hence after `optimize(Truncate)`,
whose allocator-state effect is exactly `fix_sequence`), run on a state
whose free list satisfies the sorted/disjoint partition invariant: the
free list is empty; `data` has exactly the live byte total as its
length; the registry keeps the same keys, each used range keeping its
length and its exact byte content; and the surviving ranges preserve
the original relative order and stay pairwise disjoint — together:
`data` contains exactly the bytes of the live ranges, tightly packed in
their original relative order, and every live handle's content is
unchanged. -/
theorem C7_fix_sequence_compaction (m : SimpleGpuMemory)
    (hpart : exact_partition m)
    (hsorted : List.Pairwise (fun a b : AddressRange => a.stop ≤ b.start) m.available_ranges) :
    optimize_truncate m = fix_sequence m ∧
    (fix_sequence m).available_ranges = [] ∧
    (fix_sequence m).data.length = sum_lens (m.used_ranges.map Prod.snd) ∧
    (fix_sequence m).used_ranges =
      m.used_ranges.map (fun kv => (kv.1, shift_all m.available_ranges kv.2)) ∧
    (∀ kv ∈ m.used_ranges,
      (shift_all m.available_ranges kv.2).len = kv.2.len ∧
      range_bytes (fix_sequence m).data (shift_all m.available_ranges kv.2) =
        range_bytes m.data kv.2) ∧
    (∀ kv ∈ m.used_ranges, ∀ kw ∈ m.used_ranges,
      kv.2.stop ≤ kw.2.start →
      (shift_all m.available_ranges kv.2).stop ≤
        (shift_all m.available_ranges kw.2).start) ∧
    List.Pairwise ranges_disjoint ((fix_sequence m).used_ranges.map Prod.snd) := by
  have hgwf : gaps_wf m.available_ranges m.data.length := by
    refine ⟨hsorted, fun g hg => hpart.2.1 g (mem_all_ranges_avail hg)⟩
  have hcross : ∀ kv ∈ m.used_ranges, ∀ g ∈ m.available_ranges,
      kv.2.stop ≤ g.start ∨ g.stop ≤ kv.2.start := by
    intro kv hkv g hg
    have hpw := (List.pairwise_append.mp hpart.1).2.2
    exact hpw kv.2 (List.mem_map_of_mem Prod.snd hkv) g hg
  have hbounds : ∀ kv ∈ m.used_ranges, kv.2.start ≤ kv.2.stop ∧
      kv.2.stop ≤ m.data.length := fun kv hkv => hpart.2.1 kv.2 (mem_all_ranges_used hkv)
  have hspec : ∀ kv ∈ m.used_ranges,
      (shift_all m.available_ranges kv.2).len = kv.2.len ∧
      (shift_all m.available_ranges kv.2).start ≤ (shift_all m.available_ranges kv.2).stop ∧
      (shift_all m.available_ranges kv.2).stop ≤
        (drop_all m.available_ranges m.data).length ∧
      range_bytes (drop_all m.available_ranges m.data) (shift_all m.available_ranges kv.2) =
        range_bytes m.data kv.2 := by
    intro kv hkv
    exact shift_all_spec m.available_ranges m.data kv.2 hgwf
      (hbounds kv hkv).1 (hbounds kv hkv).2 (hcross kv hkv)
  have hdata : (fix_sequence m).data = drop_all m.available_ranges m.data := by
    rw [fix_sequence_eq]
  have hused : (fix_sequence m).used_ranges =
      m.used_ranges.map (fun kv => (kv.1, shift_all m.available_ranges kv.2)) := by
    rw [fix_sequence_eq]
  have hmono : ∀ kv ∈ m.used_ranges, ∀ kw ∈ m.used_ranges,
      kv.2.stop ≤ kw.2.start →
      (shift_all m.available_ranges kv.2).stop ≤
        (shift_all m.available_ranges kw.2).start := by
    intro kv hkv kw hkw hle
    exact shift_all_mono m.available_ranges m.data.length kv.2 kw.2 hgwf
      (hcross kv hkv) (hcross kw hkw) hle
  refine ⟨rfl, by rw [fix_sequence_eq], ?_, hused, ?_, hmono, ?_⟩
  · rw [hdata, drop_all_length _ _ hgwf]
    have := exact_partition_length m hpart
    rw [show sum_lens (all_ranges m) =
        sum_lens (m.used_ranges.map Prod.snd) + sum_lens m.available_ranges by
      unfold all_ranges sum_lens
      rw [List.map_append, List.sum_append]] at this
    omega
  · intro kv hkv
    refine ⟨(hspec kv hkv).1, ?_⟩
    rw [hdata]
    exact (hspec kv hkv).2.2.2
  · rw [hused, List.map_map]
    have hup : List.Pairwise (fun kv kw : Nat × AddressRange =>
        ranges_disjoint kv.2 kw.2) m.used_ranges := by
      have := (List.pairwise_append.mp hpart.1).1
      rwa [List.pairwise_map] at this
    rw [List.pairwise_map]
    refine hup.imp_of_mem ?_
    intro kv kw hkv hkw hd
    rcases hd with hh | hh
    · exact Or.inl (hmono kv hkv kw hkw hh)
    · exact Or.inr (hmono kw hkw kv hkv hh)

/-- C7 witness: the theorem applied to the concrete state `c7_w`
(two live 2-byte handles `[0,2)` and `[4,6)` around the free gap
`[2,4)` in a 6-byte buffer). -/
theorem C7_witness :
    exact_partition c7_w ∧
    List.Pairwise (fun a b : AddressRange => a.stop ≤ b.start) c7_w.available_ranges ∧
    (fix_sequence c7_w).available_ranges = [] ∧
    (fix_sequence c7_w).data.length = sum_lens (c7_w.used_ranges.map Prod.snd) :=
  ⟨by decide, by decide,
   (C7_fix_sequence_compaction c7_w (by decide) (by decide)).2.1,
   (C7_fix_sequence_compaction c7_w (by decide) (by decide)).2.2.1⟩

/-- C8: `upload` is a complete no-op when `mutated` is false (state
unchanged, transport skipped); when `mutated` is true it compacts via
`fix_sequence`, hands the compacted bytes to the transport, and clears
`mutated`; consequently a second `upload` with no intervening mutation
is a complete no-op and performs no transport write. -/
theorem C8_upload_gating (m : SimpleGpuMemory) :
    (m.mutated = false → upload m = (m, none)) ∧
    (m.mutated = true →
      upload m = ({ fix_sequence m with mutated := false },
        some (fix_sequence m).data)) ∧
    upload (upload m).1 = ((upload m).1, none) := by
  refine ⟨fun h => by simp [upload, h], fun h => by simp [upload, h], ?_⟩
  by_cases h : m.mutated = true
  · simp [upload, h]
  · rw [Bool.not_eq_true] at h
    simp [upload, h]

/-- C8 witness: a clean state (`SimpleGpuMemory.new`) skips the
transport; a dirty state (after one allocation) uploads once and the
second upload is skipped. -/
theorem C8_witness :
    (SimpleGpuMemory.new.mutated = false ∧
      upload SimpleGpuMemory.new = (SimpleGpuMemory.new, none)) ∧
    ((allocate 1 SimpleGpuMemory.new 1).1.mutated = true ∧
      upload (allocate 1 SimpleGpuMemory.new 1).1 =
        ({ fix_sequence (allocate 1 SimpleGpuMemory.new 1).1 with mutated := false },
         some (fix_sequence (allocate 1 SimpleGpuMemory.new 1).1).data)) ∧
    upload (upload (allocate 1 SimpleGpuMemory.new 1).1).1 =
      ((upload (allocate 1 SimpleGpuMemory.new 1).1).1, none) :=
  ⟨⟨rfl, (C8_upload_gating SimpleGpuMemory.new).1 rfl⟩,
   ⟨rfl, (C8_upload_gating (allocate 1 SimpleGpuMemory.new 1).1).2.1 rfl⟩,
   (C8_upload_gating (allocate 1 SimpleGpuMemory.new 1).1).2.2⟩

/-- C10: freeing a handle that is not in the used registry leaves the
registry, the free list, `allocated_count` and `data` unchanged, but
still unconditionally sets `mutated`, so the next `upload` performs a
transport write. -/
theorem C10_stale_free_sets_mutated (es : Nat) (m : SimpleGpuMemory) (key : Nat)
    (h : lookup_used m key = none) :
    free es m key = { m with mutated := true } ∧
    (free es m key).used_ranges = m.used_ranges ∧
    (free es m key).available_ranges = m.available_ranges ∧
    (free es m key).allocated_count = m.allocated_count ∧
    (free es m key).data = m.data ∧
    (upload (free es m key)).2 = some (fix_sequence (free es m key)).data := by
  have hfree : free es m key = { m with mutated := true } := by
    unfold free
    rw [h]
  refine ⟨hfree, by rw [hfree], by rw [hfree], by rw [hfree], by rw [hfree], ?_⟩
  rw [hfree]
  simp [upload]

/-- C10 witness: freeing the never-issued key 0 on a fresh allocator. -/
theorem C10_witness :
    lookup_used SimpleGpuMemory.new 0 = none ∧
    (free 1 SimpleGpuMemory.new 0 = { SimpleGpuMemory.new with mutated := true } ∧
     (free 1 SimpleGpuMemory.new 0).used_ranges = SimpleGpuMemory.new.used_ranges ∧
     (free 1 SimpleGpuMemory.new 0).available_ranges =
       SimpleGpuMemory.new.available_ranges ∧
     (free 1 SimpleGpuMemory.new 0).allocated_count =
       SimpleGpuMemory.new.allocated_count ∧
     (free 1 SimpleGpuMemory.new 0).data = SimpleGpuMemory.new.data ∧
     (upload (free 1 SimpleGpuMemory.new 0)).2 =
       some (fix_sequence (free 1 SimpleGpuMemory.new 0)).data) :=
  ⟨rfl, C10_stale_free_sets_mutated 1 SimpleGpuMemory.new 0 rfl⟩

theorem find_last_idx_eq_none (p : AddressRange → Bool) (l : List AddressRange)
    (h : ∀ i < l.length, p (l.getD i ⟨0, 0⟩) = false) :
    find_last_idx p l = none := by
  induction l with
  | nil => rfl
  | cons x xs ih =>
    have hx := h 0 (by simp)
    rw [List.getD_cons_zero] at hx
    have hxs : find_last_idx p xs = none := by
      refine ih (fun i hi => ?_)
      have := h (i + 1) (by simp; omega)
      rwa [List.getD_cons_succ] at this
    simp [find_last_idx, hxs, hx]

theorem find_last_idx_eq_some (p : AddressRange → Bool) (l : List AddressRange) (j : Nat)
    (hj : j < l.length) (hp : p (l.getD j ⟨0, 0⟩) = true)
    (hafter : ∀ i, j < i → i < l.length → p (l.getD i ⟨0, 0⟩) = false) :
    find_last_idx p l = some j := by
  induction l generalizing j with
  | nil => simp at hj
  | cons x xs ih =>
    cases j with
    | zero =>
      have hnone : find_last_idx p xs = none := by
        refine find_last_idx_eq_none p xs (fun i hi => ?_)
        have := hafter (i + 1) (by omega) (by simp; omega)
        rwa [List.getD_cons_succ] at this
      rw [List.getD_cons_zero] at hp
      simp [find_last_idx, hnone, hp]
    | succ k =>
      have hk : find_last_idx p xs = some k := by
        refine ih k (by simpa using hj) (by rwa [List.getD_cons_succ] at hp)
          (fun i h1 h2 => ?_)
        have := hafter (i + 1) (by omega) (by simp; omega)
        rwa [List.getD_cons_succ] at this
      simp [find_last_idx, hk]

/-- C4: `allocate(count)` uses a last-fit policy.  When `j` is the
rightmost-positioned free-list index whose range is at least
`count * element_size` long (`is_last_fit`): an exact-length range is
removed from the free list and used whole; otherwise the trailing
sub-range of the requested size becomes the allocation and the leading
remainder stays at list position `j`; and when no free range is large
enough, `data` grows by exactly that many zero bytes at its end and the
allocation is placed there.  In every case the range is registered
under the fresh key and `allocated_count` grows by `count`. -/
theorem C4_allocate_last_fit (es count : Nat) (m : SimpleGpuMemory) :
    (∀ j, is_last_fit es count m j →
      (m.available_ranges.getD j ⟨0, 0⟩).len = es * count →
      allocate es m count =
        ({ m with
            mutated := true
            available_ranges := m.available_ranges.eraseIdx j
            used_ranges :=
              m.used_ranges ++ [(m.next_key, m.available_ranges.getD j ⟨0, 0⟩)]
            next_key := m.next_key + 1
            allocated_count := m.allocated_count + count }, m.next_key)) ∧
    (∀ j, is_last_fit es count m j →
      (m.available_ranges.getD j ⟨0, 0⟩).len ≠ es * count →
      allocate es m count =
        ({ m with
            mutated := true
            available_ranges :=
              m.available_ranges.set j
                ⟨(m.available_ranges.getD j ⟨0, 0⟩).start,
                 (m.available_ranges.getD j ⟨0, 0⟩).stop - es * count⟩
            used_ranges :=
              m.used_ranges ++
                [(m.next_key,
                  ⟨(m.available_ranges.getD j ⟨0, 0⟩).stop - es * count,
                   (m.available_ranges.getD j ⟨0, 0⟩).stop⟩)]
            next_key := m.next_key + 1
            allocated_count := m.allocated_count + count }, m.next_key)) ∧
    ((∀ i < m.available_ranges.length,
        (m.available_ranges.getD i ⟨0, 0⟩).len < es * count) →
      allocate es m count =
        ({ m with
            mutated := true
            data := m.data ++ List.replicate (es * count) 0
            used_ranges :=
              m.used_ranges ++
                [(m.next_key, ⟨m.data.length, m.data.length + es * count⟩)]
            next_key := m.next_key + 1
            allocated_count := m.allocated_count + count }, m.next_key)) := by
  refine ⟨?_, ?_, ?_⟩
  · intro j ⟨hj, hfit, hafter⟩ hexact
    have hfind : find_last_idx (fun r => decide (es * count ≤ r.len))
        m.available_ranges = some j := by
      refine find_last_idx_eq_some _ _ j hj (decide_eq_true hfit) (fun i h1 h2 => ?_)
      exact decide_eq_false (not_le.mpr (hafter i h2 h1))
    unfold allocate
    simp only [hfind]
    simp only [List.getD_eq_getElem?_getD] at hexact
    simp [hexact]
  · intro j ⟨hj, hfit, hafter⟩ hsplit
    have hfind : find_last_idx (fun r => decide (es * count ≤ r.len))
        m.available_ranges = some j := by
      refine find_last_idx_eq_some _ _ j hj (decide_eq_true hfit) (fun i h1 h2 => ?_)
      exact decide_eq_false (not_le.mpr (hafter i h2 h1))
    unfold allocate
    simp only [hfind]
    simp only [List.getD_eq_getElem?_getD] at hsplit
    simp [hsplit]
  · intro hsmall
    have hfind : find_last_idx (fun r => decide (es * count ≤ r.len))
        m.available_ranges = none := by
      refine find_last_idx_eq_none _ _ (fun i hi => ?_)
      exact decide_eq_false (not_le.mpr (hsmall i hi))
    unfold allocate
    simp only [hfind]

/-- C4 witness: on `c4_w` with free list `[[0,4), [6,16)]`, a 4-byte
request selects the RIGHTMOST fitting range `[6,16)` (index 1), not the
exactly-fitting `[0,4)` (index 0), and splits its tail off. -/
theorem C4_witness :
    is_last_fit 1 4 c4_w 1 ∧
    (c4_w.available_ranges.getD 1 ⟨0, 0⟩).len ≠ 1 * 4 ∧
    allocate 1 c4_w 4 =
      ({ c4_w with
          mutated := true
          available_ranges :=
            c4_w.available_ranges.set 1
              ⟨(c4_w.available_ranges.getD 1 ⟨0, 0⟩).start,
               (c4_w.available_ranges.getD 1 ⟨0, 0⟩).stop - 1 * 4⟩
          used_ranges :=
            c4_w.used_ranges ++
              [(c4_w.next_key,
                ⟨(c4_w.available_ranges.getD 1 ⟨0, 0⟩).stop - 1 * 4,
                 (c4_w.available_ranges.getD 1 ⟨0, 0⟩).stop⟩)]
          next_key := c4_w.next_key + 1
          allocated_count := c4_w.allocated_count + 4 }, c4_w.next_key) :=
  ⟨by decide, by decide,
   (C4_allocate_last_fit 1 4 c4_w).2.1 1 (by decide) (by decide)⟩

/-- C5: shrinking `resize` frees exactly the leading portion
`[start, stop - new_count * es)` of the handle's range (returning it to
the free list through the coalescing insertion), keeps the trailing
`new_count * es` bytes as the live range, decrements `allocated_count`
by `old_count - new_count`, and the surviving bytes are the LAST
`new_count * es` bytes previously addressed by the handle (`data` is
untouched). -/
theorem C5_resize_shrink_keeps_suffix (es old_count new_count : Nat)
    (m : SimpleGpuMemory) (key : Nat) (range : AddressRange)
    (hes : 0 < es)
    (hlive : lookup_used m key = some range)
    (hlen : range.len = es * old_count)
    (hlt : new_count < old_count) :
    resize es m key new_count =
      some
        ({ m with
            mutated := true
            allocated_count := m.allocated_count - (old_count - new_count)
            available_ranges :=
              make_range_available m.available_ranges
                ⟨range.start, range.stop - new_count * es⟩
            used_ranges :=
              m.used_ranges.map (fun kv =>
                if kv.1 = key then (kv.1, ⟨range.stop - new_count * es, kv.2.stop⟩)
                else kv) },
         key) ∧
    range_bytes m.data ⟨range.stop - new_count * es, range.stop⟩ =
      (range_bytes m.data range).drop ((old_count - new_count) * es) := by
  have hA : range.stop - range.start = es * old_count := hlen
  have hpos : 0 < es * old_count :=
    Nat.mul_pos hes (Nat.lt_of_le_of_lt (Nat.zero_le _) hlt)
  have hstop : range.stop = range.start + es * old_count := by omega
  have hBA : new_count * es < es * old_count := by
    rw [Nat.mul_comm es old_count]
    exact Nat.mul_lt_mul_of_pos_right hlt hes
  have hsize_lt : new_count * es < range.len := by
    unfold AddressRange.len
    omega
  constructor
  · simp only [resize, hlive]
    rw [if_neg (by omega), if_neg (by omega)]
    have hcount : (AddressRange.mk range.start (range.stop - new_count * es)).len / es =
        old_count - new_count := by
      have h1 : (AddressRange.mk range.start (range.stop - new_count * es)).len =
          es * (old_count - new_count) := by
        unfold AddressRange.len
        simp only
        rw [Nat.mul_sub]
        have : es * new_count = new_count * es := Nat.mul_comm _ _
        omega
      rw [h1, Nat.mul_div_cancel_left _ hes]
    rw [hcount]
  · unfold range_bytes
    simp only
    rw [List.drop_take, List.drop_drop]
    have h1 : range.start + (old_count - new_count) * es = range.stop - new_count * es := by
      rw [Nat.sub_mul]
      have : old_count * es = es * old_count := Nat.mul_comm _ _
      have : new_count * es ≤ old_count * es := Nat.mul_le_mul_right _ (le_of_lt hlt)
      omega
    have h2 : range.stop - range.start - (old_count - new_count) * es =
        range.stop - (range.stop - new_count * es) := by
      rw [Nat.sub_mul]
      have : old_count * es = es * old_count := Nat.mul_comm _ _
      have : new_count * es ≤ old_count * es := Nat.mul_le_mul_right _ (le_of_lt hlt)
      omega
    rw [h1, h2]

/-- C5 witness: a 10-byte handle holding bytes 1..10, shrunk to 4
elements of a 1-byte type — the survivors are the last four bytes
7, 8, 9, 10. -/
theorem C5_witness :
    0 < 1 ∧ lookup_used c5_w 0 = some ⟨0, 10⟩ ∧
    (AddressRange.mk 0 10).len = 1 * 10 ∧ 4 < 10 ∧
    (resize 1 c5_w 0 4 =
      some
        ({ c5_w with
            mutated := true
            allocated_count := c5_w.allocated_count - (10 - 4)
            available_ranges :=
              make_range_available c5_w.available_ranges ⟨0, 10 - 4 * 1⟩
            used_ranges :=
              c5_w.used_ranges.map (fun kv =>
                if kv.1 = 0 then (kv.1, ⟨10 - 4 * 1, kv.2.stop⟩) else kv) },
         0) ∧
      range_bytes c5_w.data ⟨10 - 4 * 1, 10⟩ =
        (range_bytes c5_w.data ⟨0, 10⟩).drop ((10 - 4) * 1)) :=
  ⟨by decide, by decide, by decide, by decide,
   C5_resize_shrink_keeps_suffix 1 10 4 c5_w 0 ⟨0, 10⟩
     (by decide) (by decide) (by decide) (by decide)⟩

theorem find_last_idx_some_p (p : AddressRange → Bool) (l : List AddressRange) (j : Nat)
    (h : find_last_idx p l = some j) :
    j < l.length ∧ p (l.getD j ⟨0, 0⟩) = true := by
  induction l generalizing j with
  | nil => simp [find_last_idx] at h
  | cons x xs ih =>
    have h' : (match find_last_idx p xs with
               | some i => some (i + 1)
               | none => if p x then some 0 else none) = some j := h
    cases hxs : find_last_idx p xs with
    | some i =>
      rw [hxs] at h'
      have hj := Option.some.inj h'
      subst hj
      obtain ⟨hi, hp⟩ := ih i hxs
      exact ⟨by simp; omega, by rwa [List.getD_cons_succ]⟩
    | none =>
      rw [hxs] at h'
      by_cases hp : p x = true
      · rw [if_pos hp] at h'
        have hj := Option.some.inj h'
        subst hj
        exact ⟨by simp, by rwa [List.getD_cons_zero]⟩
      · rw [if_neg hp] at h'
        simp at h'

/-- Every `allocate` registers exactly one fresh range of the requested
byte size under the fresh key, and touches `data` only by (possibly)
appending that many zero bytes. -/
theorem allocate_result (es count : Nat) (m : SimpleGpuMemory) :
    ∃ (d : List Nat) (av : List AddressRange) (r : AddressRange),
      allocate es m count =
        ({ m with
            mutated := true
            data := d
            available_ranges := av
            used_ranges := m.used_ranges ++ [(m.next_key, r)]
            next_key := m.next_key + 1
            allocated_count := m.allocated_count + count }, m.next_key) ∧
      r.len = es * count ∧
      (d = m.data ∨ d = m.data ++ List.replicate (es * count) 0) := by
  simp only [allocate]
  cases hfind : find_last_idx (fun r => decide (es * count ≤ r.len)) m.available_ranges with
  | none =>
    simp only [hfind]
    exact ⟨_, _, _, rfl, by simp [AddressRange.len], Or.inr rfl⟩
  | some j =>
    have hspec := find_last_idx_some_p _ _ j hfind
    have hle : es * count ≤ (m.available_ranges.getD j ⟨0, 0⟩).len :=
      of_decide_eq_true hspec.2
    simp only [hfind]
    by_cases hx : (m.available_ranges.getD j ⟨0, 0⟩).len ≠ es * count
    · rw [if_pos hx]
      refine ⟨_, _, _, rfl, ?_, Or.inl rfl⟩
      unfold AddressRange.len at *
      simp only
      omega
    · rw [if_neg hx]
      push_neg at hx
      exact ⟨_, _, _, rfl, hx, Or.inl rfl⟩

theorem free_of_lookup_some (es : Nat) {m : SimpleGpuMemory} {key : Nat}
    {range : AddressRange} (h : lookup_used m key = some range) :
    free es m key =
      { m with
          mutated := true
          used_ranges := m.used_ranges.filter (fun kv => kv.1 ≠ key)
          allocated_count := m.allocated_count - range.len / es
          available_ranges := make_range_available m.available_ranges range } := by
  unfold free
  rw [h]

theorem find?_append_none {α : Type} (p : α → Bool) (l1 l2 : List α)
    (h : l1.find? p = none) :
    (l1 ++ l2).find? p = l2.find? p := by
  induction l1 with
  | nil => rfl
  | cons x xs ih =>
    cases hx : p x with
    | true =>
      rw [List.find?_cons_of_pos _ hx] at h
      exact absurd h (by simp)
    | false =>
      rw [List.find?_cons_of_neg _ (by simp [hx])] at h
      rw [List.cons_append, List.find?_cons_of_neg _ (by simp [hx])]
      exact ih h

theorem lookup_mem {m : SimpleGpuMemory} {key : Nat} {range : AddressRange}
    (h : lookup_used m key = some range) : (key, range) ∈ m.used_ranges := by
  unfold lookup_used at h
  cases hf : m.used_ranges.find? (fun kv => kv.1 == key) with
  | none => rw [hf] at h; simp at h
  | some kv =>
    rw [hf] at h
    have hmem := List.mem_of_find?_eq_some hf
    have hk : kv.1 = key := by simpa using List.find?_some hf
    have hr : kv.2 = range := by simpa using h
    rw [show (key, range) = kv from Prod.ext hk.symm hr.symm]
    exact hmem

/-- C6: a growing `resize` takes the free-then-reallocate path: the old
range is freed, a brand-new range of `new_count` elements is allocated
and registered, and the handle variable (passed by `&mut Self::Index`)
is updated in place to the fresh key, whose registry entry is the new
range.  The old key is gone from the registry, and `data` is never
written — at most `new_count * es` zero bytes are appended — so the old
range's contents are not copied into the new range. -/
theorem C6_resize_grow_discards (es new_count : Nat) (m : SimpleGpuMemory)
    (key : Nat) (range : AddressRange)
    (hbound : ∀ kv ∈ m.used_ranges, kv.1 < m.next_key)
    (hlive : lookup_used m key = some range)
    (hlt : range.len < new_count * es) :
    ∃ (m' : SimpleGpuMemory) (new_range : AddressRange),
      resize es m key new_count = some (m', m.next_key) ∧
      m' = (allocate es (free es m key) new_count).1 ∧
      m'.used_ranges = (free es m key).used_ranges ++ [(m.next_key, new_range)] ∧
      new_range.len = es * new_count ∧
      lookup_used m' key = none ∧
      lookup_used m' m.next_key = some new_range ∧
      (m'.data = m.data ∨ m'.data = m.data ++ List.replicate (es * new_count) 0) := by
  have hfree := free_of_lookup_some es hlive
  have hfnk : (free es m key).next_key = m.next_key := by rw [hfree]
  have hfdata : (free es m key).data = m.data := by rw [hfree]
  have hfused : (free es m key).used_ranges =
      m.used_ranges.filter (fun kv => kv.1 ≠ key) := by rw [hfree]
  obtain ⟨d, av, r, heq, hrlen, hd⟩ := allocate_result es new_count (free es m key)
  have hkey : key < m.next_key := by
    have hmem := lookup_mem hlive
    exact hbound (key, range) hmem
  have hused : (allocate es (free es m key) new_count).1.used_ranges =
      m.used_ranges.filter (fun kv => kv.1 ≠ key) ++ [(m.next_key, r)] := by
    rw [heq, hfused, hfnk]
  have hnone1 : (m.used_ranges.filter (fun kv => kv.1 ≠ key)).find?
      (fun kv => kv.1 == key) = none := by
    rw [List.find?_eq_none]
    intro kv hkv
    rw [List.mem_filter] at hkv
    simp at hkv ⊢
    exact hkv.2
  have hnone2 : (m.used_ranges.filter (fun kv => kv.1 ≠ key)).find?
      (fun kv => kv.1 == m.next_key) = none := by
    rw [List.find?_eq_none]
    intro kv hkv
    rw [List.mem_filter] at hkv
    have := hbound kv hkv.1
    simp
    omega
  refine ⟨(allocate es (free es m key) new_count).1, r, ?_, rfl, ?_, hrlen, ?_, ?_, ?_⟩
  · simp only [resize, hlive]
    rw [if_pos hlt, heq, hfnk]
  · rw [heq, hfused, hfnk]
  · unfold lookup_used
    rw [hused, find?_append_none _ _ _ hnone1]
    have : m.next_key ≠ key := by omega
    simp [this]
  · unfold lookup_used
    rw [hused, find?_append_none _ _ _ hnone2]
    simp
  · have hdval : (allocate es (free es m key) new_count).1.data = d := by rw [heq]
    rw [hdval]
    rcases hd with hh | hh
    · left; rw [hh, hfdata]
    · right; rw [hh, hfdata]

/-- C6 witness: a 3-byte handle grown to 5 elements of a 1-byte type:
the old range is freed, a new 5-byte range is carved (here by growing
`data` with five zero bytes), the handle becomes the fresh key 1, and
no bytes are copied. -/
theorem C6_witness :
    (∀ kv ∈ c6_w.used_ranges, kv.1 < c6_w.next_key) ∧
    lookup_used c6_w 0 = some ⟨0, 3⟩ ∧
    (AddressRange.mk 0 3).len < 5 * 1 ∧
    (∃ (m' : SimpleGpuMemory) (new_range : AddressRange),
      resize 1 c6_w 0 5 = some (m', c6_w.next_key) ∧
      m' = (allocate 1 (free 1 c6_w 0) 5).1 ∧
      m'.used_ranges = (free 1 c6_w 0).used_ranges ++ [(c6_w.next_key, new_range)] ∧
      new_range.len = 1 * 5 ∧
      lookup_used m' 0 = none ∧
      lookup_used m' c6_w.next_key = some new_range ∧
      (m'.data = c6_w.data ∨ m'.data = c6_w.data ++ List.replicate (1 * 5) 0)) :=
  ⟨by decide, by decide, by decide,
   C6_resize_grow_discards 1 5 c6_w 0 ⟨0, 3⟩ (by decide) (by decide) (by decide)⟩

theorem sum_lens_cons (x : AddressRange) (l : List AddressRange) :
    sum_lens (x :: l) = x.len + sum_lens l := by
  simp [sum_lens]

theorem snd_pair (k : Nat) (r : AddressRange) : ((k, r) : Nat × AddressRange).2 = r := rfl

theorem map_eq_self_of_eq {α : Type} (f : α → α) (l : List α) (h : ∀ a ∈ l, f a = a) :
    l.map f = l := by
  induction l with
  | nil => rfl
  | cons x xs ih =>
    rw [List.map_cons, h x (List.mem_cons_self _ _),
      ih (fun a ha => h a (List.mem_cons_of_mem _ ha))]

theorem sum_lens_filter (l : List (Nat × AddressRange)) (key : Nat) (r : AddressRange)
    (hnd : (l.map Prod.fst).Nodup) (hmem : (key, r) ∈ l) :
    sum_lens ((l.filter (fun kv => kv.1 ≠ key)).map Prod.snd) + r.len =
      sum_lens (l.map Prod.snd) := by
  induction l with
  | nil => simp at hmem
  | cons kv rest ih =>
    rw [List.map_cons, List.nodup_cons] at hnd
    rcases List.mem_cons.mp hmem with heq | hmem'
    · subst heq
      have hrest : rest.filter (fun kv => kv.1 ≠ key) = rest := by
        rw [List.filter_eq_self]
        intro a ha
        simp only [decide_eq_true_eq]
        intro hak
        exact hnd.1 (List.mem_map.mpr ⟨a, ha, hak⟩)
      rw [List.filter_cons, if_neg (by simp), hrest, List.map_cons, sum_lens_cons]
      simp only [snd_pair]
      omega
    · have hk : kv.1 ≠ key := by
        intro hk
        exact hnd.1 (hk ▸ List.mem_map.mpr ⟨(key, r), hmem', rfl⟩)
      rw [List.filter_cons, if_pos (by simp [hk])]
      rw [List.map_cons, List.map_cons, sum_lens_cons, sum_lens_cons]
      have := ih hnd.2 hmem'
      omega

theorem sum_lens_resize_update (l : List (Nat × AddressRange)) (key ns : Nat)
    (r : AddressRange)
    (hnd : (l.map Prod.fst).Nodup) (hmem : (key, r) ∈ l) :
    sum_lens ((l.map (fun kv =>
        if kv.1 = key then (kv.1, AddressRange.mk ns kv.2.stop) else kv)).map Prod.snd) +
      r.len =
      sum_lens (l.map Prod.snd) + (AddressRange.mk ns r.stop).len := by
  induction l with
  | nil => simp at hmem
  | cons kv rest ih =>
    rw [List.map_cons, List.nodup_cons] at hnd
    rcases List.mem_cons.mp hmem with heq | hmem'
    · subst heq
      have hrest : rest.map (fun kv =>
          if kv.1 = key then (kv.1, AddressRange.mk ns kv.2.stop) else kv) = rest := by
        refine map_eq_self_of_eq _ _ (fun a ha => ?_)
        rw [if_neg ?_]
        intro hak
        exact hnd.1 (List.mem_map.mpr ⟨a, ha, hak⟩)
      rw [List.map_cons, if_pos rfl, hrest]
      rw [List.map_cons, List.map_cons, sum_lens_cons, sum_lens_cons]
      simp only [snd_pair]
      omega
    · have hk : kv.1 ≠ key := by
        intro hk
        exact hnd.1 (hk ▸ List.mem_map.mpr ⟨(key, r), hmem', rfl⟩)
      rw [List.map_cons, if_neg hk]
      rw [List.map_cons, List.map_cons, sum_lens_cons, sum_lens_cons]
      have := ih hnd.2 hmem'
      omega

theorem len_le_sum_lens {l : List (Nat × AddressRange)} {kv : Nat × AddressRange}
    (h : kv ∈ l) : kv.2.len ≤ sum_lens (l.map Prod.snd) := by
  induction l with
  | nil => simp at h
  | cons x rest ih =>
    rw [List.map_cons, sum_lens_cons]
    rcases List.mem_cons.mp h with heq | h'
    · rw [heq]; omega
    · have := ih h'; omega

theorem sum_div_mul (es : Nat) (l : List (Nat × AddressRange))
    (hdvd : ∀ kv ∈ l, es ∣ kv.2.len) :
    (l.map (fun kv => kv.2.len / es)).sum * es = sum_lens (l.map Prod.snd) := by
  induction l with
  | nil => simp [sum_lens]
  | cons kv rest ih =>
    rw [List.map_cons, List.map_cons, List.sum_cons, sum_lens_cons]
    rw [Nat.add_mul, ih (fun a ha => hdvd a (List.mem_cons_of_mem _ ha))]
    rw [Nat.div_mul_cancel (hdvd kv (List.mem_cons_self _ _))]

theorem nodup_entry_unique {l : List (Nat × AddressRange)}
    (hnd : (l.map Prod.fst).Nodup)
    {key : Nat} {r1 r2 : AddressRange} (h1 : (key, r1) ∈ l) (h2 : (key, r2) ∈ l) :
    r1 = r2 := by
  induction l with
  | nil => simp at h1
  | cons x rest ih =>
    rw [List.map_cons, List.nodup_cons] at hnd
    rcases List.mem_cons.mp h1 with he1 | h1'
    · subst he1
      rcases List.mem_cons.mp h2 with he2 | h2'
      · exact ((Prod.mk.injEq _ _ _ _).mp he2).2.symm
      · exact absurd (List.mem_map.mpr ⟨(key, r2), h2', rfl⟩) hnd.1
    · rcases List.mem_cons.mp h2 with he2 | h2'
      · subst he2
        exact absurd (List.mem_map.mpr ⟨(key, r1), h1', rfl⟩) hnd.1
      · exact ih hnd.2 h1' h2'

theorem registry_wf_new (es : Nat) : registry_wf es SimpleGpuMemory.new := by
  refine ⟨by simp [SimpleGpuMemory.new], by simp [SimpleGpuMemory.new],
    by simp [SimpleGpuMemory.new], by simp [SimpleGpuMemory.new, sum_lens]⟩

theorem registry_wf_allocate (es count : Nat) (m : SimpleGpuMemory)
    (h : registry_wf es m) : registry_wf es (allocate es m count).1 := by
  obtain ⟨d, av, r, heq, hrlen, _⟩ := allocate_result es count m
  obtain ⟨hnd, hbound, hdvd, hsum⟩ := h
  rw [heq]
  refine ⟨?_, ?_, ?_, ?_⟩
  · simp only [List.map_append, List.map_cons, List.map_nil]
    rw [List.nodup_append]
    refine ⟨hnd, List.nodup_singleton _, ?_⟩
    intro a ha hb
    rw [List.mem_singleton] at hb
    subst hb
    obtain ⟨kv, hkv, hk⟩ := List.mem_map.mp ha
    exact absurd hk (Nat.ne_of_lt (hbound kv hkv))
  · intro kv hkv
    rcases List.mem_append.mp hkv with hold | hnew
    · exact Nat.lt_succ_of_lt (hbound kv hold)
    · rw [List.mem_singleton] at hnew
      subst hnew
      exact Nat.lt_succ_self _
  · intro kv hkv
    rcases List.mem_append.mp hkv with hold | hnew
    · exact hdvd kv hold
    · rw [List.mem_singleton] at hnew
      subst hnew
      rw [snd_pair, hrlen]
      exact Dvd.intro count rfl
  · simp only [List.map_append, List.map_cons, List.map_nil]
    unfold sum_lens at *
    rw [List.map_append, List.sum_append]
    simp only [List.map_cons, List.map_nil, List.sum_cons, List.sum_nil, snd_pair]
    rw [Nat.add_mul, hrlen]
    have hcm : es * count = count * es := Nat.mul_comm _ _
    omega

theorem registry_wf_free (es key : Nat) (m : SimpleGpuMemory) (hes : 0 < es)
    (h : registry_wf es m) : registry_wf es (free es m key) := by
  obtain ⟨hnd, hbound, hdvd, hsum⟩ := h
  cases hl : lookup_used m key with
  | none =>
    unfold free
    rw [hl]
    exact ⟨hnd, hbound, hdvd, hsum⟩
  | some range =>
    rw [free_of_lookup_some es hl]
    have hmem := lookup_mem hl
    obtain ⟨t, ht⟩ := hdvd (key, range) hmem
    rw [snd_pair] at ht
    refine ⟨?_, ?_, ?_, ?_⟩
    · exact (List.Sublist.map Prod.fst (List.filter_sublist _)).nodup hnd
    · intro kv hkv
      exact hbound kv (List.mem_filter.mp hkv).1
    · intro kv hkv
      exact hdvd kv (List.mem_filter.mp hkv).1
    · show (m.allocated_count - range.len / es) * es =
        sum_lens ((m.used_ranges.filter (fun kv => kv.1 ≠ key)).map Prod.snd)
      have hfil := sum_lens_filter m.used_ranges key range hnd hmem
      have hle : range.len ≤ sum_lens (m.used_ranges.map Prod.snd) := by
        have := len_le_sum_lens hmem
        rwa [snd_pair] at this
      have hdiv : range.len / es = t := by
        rw [ht]
        exact Nat.mul_div_cancel_left t hes
      rw [hdiv, Nat.sub_mul]
      have hc : t * es = es * t := Nat.mul_comm _ _
      omega

theorem registry_wf_resize (es key len k' : Nat) (m m' : SimpleGpuMemory)
    (hes : 0 < es) (h : registry_wf es m)
    (hr : resize es m key len = some (m', k')) : registry_wf es m' := by
  cases hl : lookup_used m key with
  | none =>
    unfold resize at hr
    rw [hl] at hr
    simp at hr
  | some range =>
    simp only [resize, hl] at hr
    by_cases h1 : range.len < len * es
    · rw [if_pos h1] at hr
      have hm' : m' = (allocate es (free es m key) len).1 :=
        congrArg Prod.fst (Option.some.inj hr) |>.symm
      rw [hm']
      exact registry_wf_allocate _ _ _ (registry_wf_free _ _ _ hes h)
    · rw [if_neg h1] at hr
      by_cases h2 : range.len = len * es
      · rw [if_pos h2] at hr
        have hm' : m' = m := congrArg Prod.fst (Option.some.inj hr) |>.symm
        rw [hm']
        exact h
      · rw [if_neg h2] at hr
        have hp := Option.some.inj hr
        injection hp with hm' hk'
        subst hm'
        obtain ⟨hnd, hbound, hdvd, hsum⟩ := h
        have hmem := lookup_mem hl
        obtain ⟨t, ht⟩ := hdvd (key, range) hmem
        rw [snd_pair] at ht
        have hsz : len * es < range.len := by omega
        have hszstop : len * es ≤ range.stop := by
          unfold AddressRange.len at hsz
          omega
        have hklen : ∀ kv ∈ m.used_ranges, kv.1 = key → kv.2 = range := by
          intro kv hkv hk
          refine nodup_entry_unique hnd ?_ hmem
          rw [← hk]
          exact hkv
        refine ⟨?_, ?_, ?_, ?_⟩
        · show ((m.used_ranges.map (fun kv =>
              if kv.1 = key then (kv.1, AddressRange.mk (range.stop - len * es) kv.2.stop)
              else kv)).map Prod.fst).Nodup
          have hfst : (m.used_ranges.map (fun kv =>
              if kv.1 = key then (kv.1, AddressRange.mk (range.stop - len * es) kv.2.stop)
              else kv)).map Prod.fst = m.used_ranges.map Prod.fst := by
            rw [List.map_map]
            refine List.map_congr_left (fun kv _ => ?_)
            by_cases hk : kv.1 = key
            · simp [hk]
            · simp [hk]
          rw [hfst]
          exact hnd
        · show ∀ kv ∈ m.used_ranges.map (fun kv =>
              if kv.1 = key then (kv.1, AddressRange.mk (range.stop - len * es) kv.2.stop)
              else kv), kv.1 < m.next_key
          intro kv hkv
          obtain ⟨kw, hkw, hfk⟩ := List.mem_map.mp hkv
          subst hfk
          by_cases hk : kw.1 = key
          · rw [if_pos hk]
            exact hk ▸ hbound kw hkw
          · rw [if_neg hk]
            exact hbound kw hkw
        · show ∀ kv ∈ m.used_ranges.map (fun kv =>
              if kv.1 = key then (kv.1, AddressRange.mk (range.stop - len * es) kv.2.stop)
              else kv), es ∣ kv.2.len
          intro kv hkv
          obtain ⟨kw, hkw, hfk⟩ := List.mem_map.mp hkv
          subst hfk
          by_cases hk : kw.1 = key
          · rw [if_pos hk, snd_pair]
            have hkw2 : kw.2 = range := hklen kw hkw hk
            rw [hkw2]
            have hlen5 : (AddressRange.mk (range.stop - len * es) range.stop).len =
                len * es := by
              unfold AddressRange.len
              simp only
              omega
            rw [hlen5]
            exact Dvd.intro_left len rfl
          · rw [if_neg hk]
            exact hdvd kw hkw
        · show (m.allocated_count -
              (AddressRange.mk range.start (range.stop - len * es)).len / es) * es =
            sum_lens ((m.used_ranges.map (fun kv =>
              if kv.1 = key then (kv.1, AddressRange.mk (range.stop - len * es) kv.2.stop)
              else kv)).map Prod.snd)
          have hsumu := sum_lens_resize_update m.used_ranges key
            (range.stop - len * es) range hnd hmem
          have hfree_len : (AddressRange.mk range.start (range.stop - len * es)).len / es =
              t - len := by
            have hfl : (AddressRange.mk range.start (range.stop - len * es)).len =
                es * (t - len) := by
              unfold AddressRange.len at *
              simp only
              rw [Nat.mul_sub]
              have h3 : len * es = es * len := Nat.mul_comm _ _
              omega
            rw [hfl]
            exact Nat.mul_div_cancel_left _ hes
          rw [hfree_len, Nat.sub_mul]
          have hnew_len : (AddressRange.mk (range.stop - len * es) range.stop).len =
              len * es := by
            unfold AddressRange.len
            simp only
            omega
          rw [hnew_len] at hsumu
          have hle : range.len ≤ sum_lens (m.used_ranges.map Prod.snd) := by
            have := len_le_sum_lens hmem
            rwa [snd_pair] at this
          have hc1 : (t - len) * es = es * t - es * len := by
            rw [Nat.sub_mul]
            have h4 : t * es = es * t := Nat.mul_comm _ _
            have h5 : len * es = es * len := Nat.mul_comm _ _
            omega
          have hc2 : es * len = len * es := Nat.mul_comm _ _
          have hc3 : es * t = range.len := ht.symm
          omega

theorem reachable_registry_wf (es : Nat) (m : SimpleGpuMemory) (hes : 0 < es)
    (h : Reachable es m) : registry_wf es m := by
  induction h with
  | init => exact registry_wf_new es
  | alloc count _ ih => exact registry_wf_allocate _ _ _ ih
  | do_free key _ ih => exact registry_wf_free _ _ _ hes ih
  | do_resize _ hr ih => exact registry_wf_resize _ _ _ _ _ _ hes ih hr

/-- C9: after any sequence of allocate/resize/free from a fresh
allocator, `size()` equals `allocated_count * element_size`,
`allocated_count` equals the sum of `len_of` over all live handles, and
equivalently `allocated_count * element_size` equals the sum of the
used ranges' byte lengths. -/
theorem C9_size_invariant (es : Nat) (m : SimpleGpuMemory)
    (hes : 0 < es) (h : Reachable es m) :
    size es m = m.allocated_count * es ∧
    m.allocated_count = sum_len_of es m ∧
    m.allocated_count * es = sum_lens (m.used_ranges.map Prod.snd) := by
  obtain ⟨hnd, hbound, hdvd, hsum⟩ := reachable_registry_wf es m hes h
  refine ⟨rfl, ?_, hsum⟩
  have hdm := sum_div_mul es m.used_ranges hdvd
  have hmul : m.allocated_count * es = sum_len_of es m * es := by
    rw [hsum, ← hdm]
    rfl
  exact Nat.eq_of_mul_eq_mul_right hes hmul

/-- C9 witness: the invariant instantiated after allocating 2 elements
of a 4-byte type from a fresh allocator. -/
theorem C9_witness :
    0 < 4 ∧
    (size 4 (allocate 4 SimpleGpuMemory.new 2).1 =
        (allocate 4 SimpleGpuMemory.new 2).1.allocated_count * 4 ∧
      (allocate 4 SimpleGpuMemory.new 2).1.allocated_count =
        sum_len_of 4 (allocate 4 SimpleGpuMemory.new 2).1 ∧
      (allocate 4 SimpleGpuMemory.new 2).1.allocated_count * 4 =
        sum_lens ((allocate 4 SimpleGpuMemory.new 2).1.used_ranges.map Prod.snd)) :=
  ⟨by decide, C9_size_invariant 4 _ (by decide) (Reachable.alloc 2 Reachable.init)⟩

/-- C1 (code bug): after allocating through the decorator and cloning
the owning handle, dropping the ORIGINAL handle frees the allocation
even though the duplicate is still alive.  `clone` gives the duplicate
a fresh `Arc::new(())` instead of cloning the shared refcount, so the
original's `Drop` sees `strong_count == 1`.  The claim — that the range
is freed only when the last owner is destroyed — is violated: here the
range `[0,1)` is gone from the registry (`used_ranges = []`, `size()`
drops to 0) while the duplicate (whose own refcount cell is still live
with count 1) still points at the freed inner key. -/
theorem C1_clone_frees_while_duplicate_alive :
    c1_alloc.1.inner.used_ranges = [(0, ⟨0, 1⟩)] ∧
    c1_clone.2.inner = c1_alloc.2.inner ∧
    strong_count c1_final c1_clone.2.refcount = 1 ∧
    c1_final.inner.used_ranges = [] ∧
    c1_final.inner.allocated_count = 0 := by
  refine ⟨by decide, by decide, by decide, by decide, by decide⟩

/-- C2 (code bug): the partition invariant is violated on a reachable
state.  With a 1-byte element type: allocate 4+4+4 bytes (keys 0, 1, 2
at `[0,4)`, `[4,8)`, `[8,12)`), free key 0, then free key 2.
`make_range_available` inserts `[8,12)` before `[0,4)` (because
`0 <= 12`) and the forward merge unions them across the live range
`[4,8)`, leaving the free list `[[0,12)]` — which overlaps the used
range `[4,8)` of key 1, so used and free ranges are not pairwise
disjoint and no tail-partition of `[0, 12)` exists. -/
theorem C2_partition_invariant_violated :
    Reachable 1 c2_state ∧
    c2_state.available_ranges = [⟨0, 12⟩] ∧
    (1, ⟨4, 8⟩) ∈ c2_state.used_ranges ∧
    ¬ List.Pairwise ranges_disjoint (all_ranges c2_state) ∧
    ¬ partition_with_tail c2_state := by
  refine ⟨?_, by decide, by decide, by decide, by decide⟩
  exact Reachable.do_free 2 (Reachable.do_free 0
    (Reachable.alloc 4 (Reachable.alloc 4 (Reachable.alloc 4 Reachable.init))))

/-- C3 (code bug): after a `free` on a reachable state the free list
need be neither sorted nor coalesced-in-order.  With a 1-byte element
type: allocate 4+6+4 bytes, free key 2 (free list `[[10,14)]`), then
free key 0: `make_range_available` finds no entry with `start <= 4`
and appends `[0,4)` at the END, so the free list is
`[[10,14), [0,4)]` — not sorted ascending by start offset. -/
theorem C3_free_list_unsorted_after_free :
    Reachable 1 c3_prev ∧
    c3_state = free 1 c3_prev 0 ∧
    c3_state.available_ranges = [⟨10, 14⟩, ⟨0, 4⟩] ∧
    ¬ List.Pairwise (fun a b : AddressRange => a.start ≤ b.start)
        c3_state.available_ranges ∧
    ¬ List.Pairwise (fun a b : AddressRange => a.stop < b.start)
        c3_state.available_ranges := by
  refine ⟨?_, rfl, by decide, by decide, by decide⟩
  exact Reachable.do_free 2
    (Reachable.alloc 4 (Reachable.alloc 6 (Reachable.alloc 4 Reachable.init)))

end WgpuMemory
